import Mathlib

/-!
Verification development for the slack-markdown-proxy core: the Markdown
parser (`parseInline`, `parseMarkdown`) and the operation compiler
(`pushInlineOps`, `buildDelta`, `countInsertedLength`), together with the
paste-detection predicate (`looksLikeMarkdown`).

The JavaScript source operates on strings with integer cursors; here a
string is its list of characters, while-loops become fuel-indexed
recursion (the fuel is shown sufficient below), and the scanner's
index arithmetic becomes explicit list decompositions.
-/

namespace SlackMD

/-- Inline token tree, from `markdown-parser.ts`. -/
inductive InlineToken where
  | text (content : String)
  | bold (children : List InlineToken)
  | italic (children : List InlineToken)
  | link (children : List InlineToken) (url : String)

/-- A list item: inline content plus indent level, from `markdown-parser.ts`. -/
structure ListItem where
  content : List InlineToken
  indent : Nat

/-- Block token, from `markdown-parser.ts`. -/
inductive Token where
  | paragraph (content : List InlineToken)
  | bulletList (items : List ListItem)
  | orderedList (items : List ListItem)
  | blockquote (content : List InlineToken)
  | newline

/-- First index of character `ch` in `l` (JS `String.indexOf` restricted to
one character, applied to the suffix being scanned). -/
def findChar (ch : Char) : List Char → Option Nat
  | [] => none
  | c :: rest => if c = ch then some 0 else (findChar ch rest).map (· + 1)

/-- First index at which two consecutive `*` begin (JS `indexOf("**", ·)` on
the suffix being scanned). -/
def findTwoStars : List Char → Option Nat
  | [] => none
  | c :: rest =>
    if c = '*' ∧ rest.head? = some '*' then some 0
    else (findTwoStars rest).map (· + 1)

/-- The italic-close search loop of `parseInline`: first index `j` with
`l[j] = '*'`, the previous character (tracked in `prev`) not `'*'`, and the
next character not `'*'`. -/
def findItalicClose (prev : Char) : List Char → Option Nat
  | [] => none
  | c :: rest =>
    if c = '*' ∧ prev ≠ '*' ∧ rest.head? ≠ some '*' then some 0
    else (findItalicClose c rest).map (· + 1)

/-- The URL scan of `parseInline`'s link branch: starting from `depth`,
`(` increments, `)` decrements, and the scan stops at the character that
brings the depth to zero, returning its index.  Returns `none` when the
input ends with positive depth. -/
def scanParen : List Char → Nat → Option Nat
  | [], _ => none
  | c :: rest, depth =>
    let d2 := if c = '(' then depth + 1 else if c = ')' then depth - 1 else depth
    if d2 = 0 then some 0 else (scanParen rest d2).map (· + 1)

/-- The link branch of `parseInline` at the current cursor: requires `[`,
a later `]` followed by `(`, a depth-balanced `)`, and non-empty text and
URL.  Returns the link text, the URL, and the rest of the input after the
closing `)`. -/
def tryLink (s : List Char) : Option (List Char × List Char × List Char) :=
  match s with
  | [] => none
  | c :: rest =>
    if c = '[' then
      match findChar ']' rest with
      | some cb =>
        if (rest.drop (cb + 1)).head? = some '(' then
          match scanParen (rest.drop (cb + 2)) 1 with
          | some p =>
            let lt := rest.take cb
            let url := (rest.drop (cb + 2)).take p
            if lt.length > 0 ∧ url.length > 0 then
              some (lt, url, (rest.drop (cb + 2)).drop (p + 1))
            else none
          | none => none
        else none
      | none => none
    else none

/-- The bold branch of `parseInline` at the current cursor: `**`, a later
`**`, non-empty content in between.  Returns the content and the rest. -/
def tryBold (s : List Char) : Option (List Char × List Char) :=
  match s with
  | [] => none
  | c :: rest =>
    if c = '*' ∧ rest.head? = some '*' then
      match findTwoStars rest.tail with
      | some be =>
        if be > 0 then some (rest.tail.take be, rest.tail.drop (be + 2)) else none
      | none => none
    else none

/-- The italic branch of `parseInline` at the current cursor: `*` not
followed by `*`, a later closing `*` not adjacent to another `*`,
non-empty content in between.  Returns the content and the rest. -/
def tryItalic (s : List Char) : Option (List Char × List Char) :=
  match s with
  | [] => none
  | c :: rest =>
    if c = '*' ∧ rest.head? ≠ some '*' then
      match findItalicClose '*' rest with
      | some f =>
        if f > 0 then some (rest.take f, rest.drop (f + 1)) else none
      | none => none
    else none

/-- `flushBuf` from `parseInline`: the buffered plain characters become one
`text` token when non-empty. -/
def flushBuf (buf : List Char) : List InlineToken :=
  if buf.length > 0 then [InlineToken.text (String.mk buf)] else []

/-- The scan loop of `parseInline`, fuel-indexed.  Each iteration either
matches a link/bold/italic span (recursing into its inner text and
continuing after the matched region) or moves one character into the
plain-text buffer.  `none` only on fuel exhaustion, which is ruled out
below for fuel exceeding the input length. -/
def goInline (fuel : Nat) (s : List Char) (buf : List Char) : Option (List InlineToken) :=
  match fuel with
  | 0 => none
  | fuel + 1 =>
    match s with
    | [] => some (flushBuf buf)
    | c :: rest =>
      match tryLink (c :: rest) with
      | some (lt, url, rem) =>
        match goInline fuel lt [], goInline fuel rem [] with
        | some inner, some tl =>
          some (flushBuf buf ++ InlineToken.link inner (String.mk url) :: tl)
        | _, _ => none
      | none =>
      match tryBold (c :: rest) with
      | some (bc, rem) =>
        match goInline fuel bc [], goInline fuel rem [] with
        | some inner, some tl => some (flushBuf buf ++ InlineToken.bold inner :: tl)
        | _, _ => none
      | none =>
      match tryItalic (c :: rest) with
      | some (ic, rem) =>
        match goInline fuel ic [], goInline fuel rem [] with
        | some inner, some tl => some (flushBuf buf ++ InlineToken.italic inner :: tl)
        | _, _ => none
      | none => goInline fuel rest (buf ++ [c])

/-- `parseInline` on a character list, with the sufficient fuel budget. -/
def parseInlineCore (s : List Char) : Option (List InlineToken) :=
  goInline (s.length + 1) s []

/-- `parseInline` from `markdown-parser.ts`. -/
def parseInline (text : String) : List InlineToken :=
  (parseInlineCore text.data).getD []

/-- The JS regex class `\s` (whitespace), used by the parser's
leading-whitespace groups. -/
def jsWs (c : Char) : Bool :=
  c = ' ' || c = '\t' || c = '\n' || c = '\r' || c = '\x0b' || c = '\x0c' ||
  c = '\u00a0' || c = '\u1680' || ('\u2000' ≤ c && c ≤ '\u200a') ||
  c = '\u2028' || c = '\u2029' || c = '\u202f' || c = '\u205f' ||
  c = '\u3000' || c = '\ufeff'

/-- `markdown.split('\n')`: splitting `[]` gives `[[]]`, and every `'\n'`
separates two (possibly empty) lines. -/
def splitLines : List Char → List (List Char)
  | [] => [[]]
  | c :: rest =>
    if c = '\n' then [] :: splitLines rest
    else
      match splitLines rest with
      | l :: ls => (c :: l) :: ls
      | [] => [[c]]

/-- The bullet-line regex of `parseMarkdown`, `^(\s*)([-*]) (.*)$`: maximal
whitespace run, a `-` or `*`, a space, then the content.  (The `\s*` group
is necessarily the maximal whitespace run, since `-` and `*` are not
whitespace.)  Returns the indent (half the whitespace length, floored) and
the content. -/
def matchBullet (line : List Char) : Option (Nat × List Char) :=
  match line.dropWhile jsWs with
  | b :: sp :: content =>
    if (b = '-' ∨ b = '*') ∧ sp = ' ' then
      some ((line.takeWhile jsWs).length / 2, content)
    else none
  | _ => none

/-- The ordered-line regex of `parseMarkdown`, `^(\s*)(\d+)\. (.*)$`:
maximal whitespace run, a non-empty maximal digit run, `.`, a space, then
the content. -/
def matchOrdered (line : List Char) : Option (Nat × List Char) :=
  let afterWs := line.dropWhile jsWs
  let digits := afterWs.takeWhile Char.isDigit
  if digits.length > 0 then
    match afterWs.dropWhile Char.isDigit with
    | dot :: sp :: content =>
      if dot = '.' ∧ sp = ' ' then
        some ((line.takeWhile jsWs).length / 2, content)
      else none
    | _ => none
  else none

/-- The blockquote regex of `parseMarkdown`, `^> (.*)$`: a literal `>`,
a space, then the content — no leading whitespace allowed. -/
def matchQuote (line : List Char) : Option (List Char) :=
  match line with
  | g :: sp :: content => if g = '>' ∧ sp = ' ' then some content else none
  | _ => none

/-- The inner grouping loop of `parseMarkdown`'s bullet branch: consume the
maximal run of consecutive bullet lines, turning each into a `ListItem`,
and return the items together with the unconsumed lines. -/
def spanBullet : List (List Char) → List ListItem × List (List Char)
  | [] => ([], [])
  | l :: ls =>
    match matchBullet l with
    | some (ind, content) =>
      let r := spanBullet ls
      ({ content := (parseInlineCore content).getD [], indent := ind } :: r.1, r.2)
    | none => ([], l :: ls)

/-- The inner grouping loop of `parseMarkdown`'s ordered branch. -/
def spanOrdered : List (List Char) → List ListItem × List (List Char)
  | [] => ([], [])
  | l :: ls =>
    match matchOrdered l with
    | some (ind, content) =>
      let r := spanOrdered ls
      ({ content := (parseInlineCore content).getD [], indent := ind } :: r.1, r.2)
    | none => ([], l :: ls)

/-- The line loop of `parseMarkdown`, fuel-indexed: bullet group, ordered
group, blockquote, empty line (a `newline` token), or paragraph (followed
by a `newline` when it is not the last line). -/
def goBlocks (fuel : Nat) (lines : List (List Char)) : Option (List Token) :=
  match fuel with
  | 0 => none
  | fuel + 1 =>
    match lines with
    | [] => some []
    | line :: rest =>
      if (matchBullet line).isSome then
        (goBlocks fuel (spanBullet (line :: rest)).2).map
          (fun ts => Token.bulletList (spanBullet (line :: rest)).1 :: ts)
      else if (matchOrdered line).isSome then
        (goBlocks fuel (spanOrdered (line :: rest)).2).map
          (fun ts => Token.orderedList (spanOrdered (line :: rest)).1 :: ts)
      else
        match matchQuote line with
        | some content =>
          (goBlocks fuel rest).map
            (fun ts => Token.blockquote ((parseInlineCore content).getD []) :: ts)
        | none =>
          if line.length = 0 then
            (goBlocks fuel rest).map (fun ts => Token.newline :: ts)
          else
            (goBlocks fuel rest).map (fun ts =>
              Token.paragraph ((parseInlineCore line).getD []) ::
                (if rest.isEmpty then ts else Token.newline :: ts))

/-- `parseMarkdown` on its split lines, with the sufficient fuel budget. -/
def parseMarkdownCore (lines : List (List Char)) : Option (List Token) :=
  goBlocks (lines.length + 1) lines

/-- `parseMarkdown` from `markdown-parser.ts`. -/
def parseMarkdown (markdown : String) : List Token :=
  (parseMarkdownCore (splitLines markdown.data)).getD []

/-- A Quill attribute object, as built by `page.ts`.  The code only ever
stores these six keys, so the string-keyed JS object is modelled as a
record of optional fields; an absent key is `none`. -/
structure Attrs where
  bold : Option Bool := none
  italic : Option Bool := none
  link : Option String := none
  list : Option String := none
  indent : Option Nat := none
  blockquote : Option Bool := none

/-- `Object.keys(inherited).length > 0` is false: every key is absent. -/
def Attrs.isEmpty (a : Attrs) : Bool :=
  a.bold.isNone && a.italic.isNone && a.link.isNone &&
  a.list.isNone && a.indent.isNone && a.blockquote.isNone

/-- A Quill Delta operation emitted by `page.ts`: a retain, or an insert
whose `attributes` field is present (`some`) or absent (`none`). -/
inductive Op where
  | retain (count : Nat)
  | insert (text : String) (attributes : Option Attrs)

mutual

/-- One step of `pushInlineOps` from `page.ts`: a `text` token becomes one
insert carrying the inherited attributes (the `attributes` field is omitted
when the inherited map is empty); `bold`/`italic`/`link` recurse into their
children with the inherited map extended. -/
def pushInlineOp (t : InlineToken) (inherited : Attrs) : List Op :=
  match t with
  | .text content =>
    if inherited.isEmpty then [Op.insert content none]
    else [Op.insert content (some inherited)]
  | .bold children => pushInlineOps children { inherited with bold := some true }
  | .italic children => pushInlineOps children { inherited with italic := some true }
  | .link children url => pushInlineOps children { inherited with link := some url }

/-- `pushInlineOps` from `page.ts`: the loop over the token sequence. -/
def pushInlineOps (tokens : List InlineToken) (inherited : Attrs) : List Op :=
  match tokens with
  | [] => []
  | t :: ts => pushInlineOp t inherited ++ pushInlineOps ts inherited

end

/-- The list-item attribute object of `buildDelta`: `{list: listType}`,
with `indent` added exactly when the item's indent is positive. -/
def listAttrs (listType : String) (indent : Nat) : Attrs :=
  { list := some listType, indent := if indent > 0 then some indent else none }

/-- The per-item emission of `buildDelta`'s list branch: the item's
inline-compiled content, then one newline insert carrying the list
attributes. -/
def opsForItem (listType : String) (item : ListItem) : List Op :=
  pushInlineOps item.content {} ++ [Op.insert "\n" (some (listAttrs listType item.indent))]

/-- The loop over a list token's items in `buildDelta`. -/
def opsForItems (listType : String) : List ListItem → List Op
  | [] => []
  | it :: its => opsForItem listType it ++ opsForItems listType its

/-- The per-token emission of `buildDelta`'s switch. -/
def opsForToken : Token → List Op
  | .paragraph content => pushInlineOps content {}
  | .newline => [Op.insert "\n" none]
  | .bulletList items => opsForItems "bullet" items
  | .orderedList items => opsForItems "ordered" items
  | .blockquote content =>
    pushInlineOps content {} ++ [Op.insert "\n" (some { blockquote := some true })]

/-- The loop over the block tokens in `buildDelta`. -/
def opsForTokens : List Token → List Op
  | [] => []
  | t :: ts => opsForToken t ++ opsForTokens ts

/-- `buildDelta` from `page.ts`: a single retain for a positive starting
offset, then the emission for each block token in order. -/
def buildDelta (tokens : List Token) (startIndex : Nat) : List Op :=
  (if startIndex > 0 then [Op.retain startIndex] else []) ++ opsForTokens tokens

/-- `countInsertedLength` from `page.ts`: a left fold adding the length of
every insert's text and skipping retains. -/
def countInsertedLength (ops : List Op) : Nat :=
  ops.foldl
    (fun sum op =>
      match op with
      | Op.insert t _ => sum + t.length
      | Op.retain _ => sum)
    0

/-- The cursor position set by `slackMarkdown` in `page.ts` after applying
the delta built at `index`: `index + countInsertedLength(delta.ops)`. -/
def finalCursor (tokens : List Token) (index : Nat) : Nat :=
  index + countInsertedLength (buildDelta tokens index)

/-- Modelled from the spec's length-accounting sentence, for comparison
with `countInsertedLength`: the sum of the character length of every
`Insert.text` across the list, in order, ignoring `Retain` entries
entirely. -/
def specInsertSum (ops : List Op) : Nat :=
  (ops.map
    (fun op =>
      match op with
      | Op.insert t _ => t.length
      | Op.retain _ => 0)).sum

/-- The character class `[\t ]` used by `looksLikeMarkdown`'s line-anchored
regexes (only tab and space, unlike the parser's `\s`). -/
def tabOrSpace (c : Char) : Bool :=
  c = '\t' || c = ' '

/-- One line against `^[\t ]*[-*] .+` from `looksLikeMarkdown`: a maximal
tab/space run, `-` or `*`, a space, and at least one further character.
(The run is necessarily maximal since `-` and `*` are outside `[\t ]`; the
`m` flag plus `.` excluding newlines confine each match to one line.) -/
def bulletLinePre (line : List Char) : Bool :=
  match line.dropWhile tabOrSpace with
  | b :: sp :: _ :: _ => (b = '-' || b = '*') && sp = ' '
  | _ => false

/-- One line against `^[\t ]*\d+\. .+` from `looksLikeMarkdown`. -/
def orderedLinePre (line : List Char) : Bool :=
  let afterWs := line.dropWhile tabOrSpace
  (afterWs.takeWhile Char.isDigit).length > 0 &&
    match afterWs.dropWhile Char.isDigit with
    | dot :: sp :: _ :: _ => dot = '.' && sp = ' '
    | _ => false

/-- One line against `^[\t ]*> .+` from `looksLikeMarkdown`. -/
def quoteLinePre (line : List Char) : Bool :=
  match line.dropWhile tabOrSpace with
  | g :: sp :: _ :: _ => g = '>' && sp = ' '
  | _ => false

/-- Search for a closing `**` preceded only by non-newline characters:
the tail of `\*\*.+?\*\*` after its first matched content character. -/
def starsClose : List Char → Bool
  | [] => false
  | c :: rest => (c = '*' && rest.head? = some '*') || (c ≠ '\n' && starsClose rest)

/-- `.+?\*\*`: at least one non-newline character, then `**`. -/
def boldAfterOpen : List Char → Bool
  | [] => false
  | c :: rest => c ≠ '\n' && starsClose rest

/-- `/\*\*.+?\*\*/.test`: some position opens `**` and `boldAfterOpen`
succeeds on the remainder. -/
def testBold : List Char → Bool
  | [] => false
  | c :: rest =>
    (c = '*' && rest.head? = some '*' && boldAfterOpen rest.tail) || testBold rest

/-- The close search of the italic pre-filter regex
`(?<!\*)\*(?!\*)(?=\S).+?(?<!\*)\*(?!\*)`: a `*` whose previous character
(tracked in `prev`) and next character are not `*`, reachable over
non-newline characters. -/
def italicClose (prev : Char) : List Char → Bool
  | [] => false
  | c :: rest =>
    (c = '*' && prev ≠ '*' && rest.head? ≠ some '*') ||
      (c ≠ '\n' && italicClose c rest)

/-- The lookahead and close search after an opening `*`: the next
character exists, is not `*` and not whitespace, and a valid closing `*`
follows it. -/
def italicOpenNext : List Char → Bool
  | [] => false
  | n :: rest2 => n ≠ '*' && !jsWs n && italicClose n rest2

/-- The open search of the italic pre-filter regex: a `*` not preceded or
followed by `*`, whose next character exists and is not whitespace; the
close is then searched after that character. -/
def testItalicFrom (prev : Char) : List Char → Bool
  | [] => false
  | c :: rest => (c = '*' && prev ≠ '*' && italicOpenNext rest) || testItalicFrom c rest

/-- `/(?<!\*)\*(?!\*)(?=\S).+?(?<!\*)\*(?!\*)/.test`; at the start of the
string the lookbehind trivially holds, represented by a non-`*`
sentinel previous character. -/
def testItalic (s : List Char) : Bool :=
  testItalicFrom ' ' s

/-- `ch` occurs after a (possibly empty) run of non-newline characters:
the search for the closing bracket or parenthesis of the link
pre-filter regex. -/
def hasCloseCh (ch : Char) : List Char → Bool
  | [] => false
  | c :: rest => c = ch || (c ≠ '\n' && hasCloseCh ch rest)

/-- `.+?\)`: at least one non-newline character, then `)`. -/
def parenPart : List Char → Bool
  | [] => false
  | c :: rest => c ≠ '\n' && hasCloseCh ')' rest

/-- Search for `](` reachable over non-newline characters, followed by a
successful `parenPart`. -/
def linkClose : List Char → Bool
  | [] => false
  | c :: rest =>
    (c = ']' && rest.head? = some '(' && parenPart rest.tail) ||
      (c ≠ '\n' && linkClose rest)

/-- `.+?\]\(.+?\)`: at least one non-newline character, then `](` and a
parenthesised part. -/
def linkAfterOpen : List Char → Bool
  | [] => false
  | c :: rest => c ≠ '\n' && linkClose rest

/-- `/\[.+?\]\(.+?\)/.test`. -/
def testLink : List Char → Bool
  | [] => false
  | c :: rest => (c = '[' && linkAfterOpen rest) || testLink rest

/-- `looksLikeMarkdown` from `page.ts`: the six regex tests in source
order, combined with short-circuit disjunction exactly as the early
returns do. -/
def looksLikeMarkdown (text : String) : Bool :=
  (splitLines text.data).any bulletLinePre ||
  (splitLines text.data).any orderedLinePre ||
  (splitLines text.data).any quoteLinePre ||
  testBold text.data ||
  testItalic text.data ||
  testLink text.data

mutual

/-- The parser invariant of the data model: `children` is non-empty for
every `bold`, `italic` and `link` node, at every depth. -/
def inlineWF : InlineToken → Bool
  | .text _ => true
  | .bold ch => !ch.isEmpty && inlineWFList ch
  | .italic ch => !ch.isEmpty && inlineWFList ch
  | .link ch _ => !ch.isEmpty && inlineWFList ch

/-- `inlineWF` over a token sequence. -/
def inlineWFList : List InlineToken → Bool
  | [] => true
  | t :: ts => inlineWF t && inlineWFList ts

end

/-! ## Decompositions of the scanner helpers -/

theorem findChar_eq (ch : Char) :
    ∀ l k, findChar ch l = some k → ∃ pre post, l = pre ++ ch :: post ∧ pre.length = k := by
  intro l
  induction l with
  | nil => intro k h; simp [findChar] at h
  | cons c rest ih =>
    intro k h
    by_cases hc : c = ch
    · simp [findChar, hc] at h
      exact ⟨[], rest, by simp [hc], by simp [h]⟩
    · simp only [findChar, if_neg hc] at h
      obtain ⟨k2, hk2, hk⟩ := Option.map_eq_some'.mp h
      obtain ⟨pre, post, hl, hlen⟩ := ih k2 hk2
      exact ⟨c :: pre, post, by simp [hl], by simp [hlen]; omega⟩

theorem findTwoStars_eq :
    ∀ l k, findTwoStars l = some k →
      ∃ pre post, l = pre ++ '*' :: '*' :: post ∧ pre.length = k := by
  intro l
  induction l with
  | nil => intro k h; simp [findTwoStars] at h
  | cons c rest ih =>
    intro k h
    by_cases hc : c = '*' ∧ rest.head? = some '*'
    · rw [findTwoStars, if_pos hc] at h
      obtain ⟨t, ht⟩ := List.head?_eq_some_iff.mp hc.2
      exact ⟨[], t, by simp [hc.1, ht], by simp [← Option.some_inj.mp h]⟩
    · rw [findTwoStars, if_neg hc] at h
      obtain ⟨k2, hk2, hk⟩ := Option.map_eq_some'.mp h
      obtain ⟨pre, post, hl, hlen⟩ := ih k2 hk2
      exact ⟨c :: pre, post, by simp [hl], by simp [hlen]; omega⟩

theorem findItalicClose_eq :
    ∀ l prev k, findItalicClose prev l = some k →
      ∃ pre post, l = pre ++ '*' :: post ∧ pre.length = k := by
  intro l
  induction l with
  | nil => intro prev k h; simp [findItalicClose] at h
  | cons c rest ih =>
    intro prev k h
    by_cases hc : c = '*' ∧ prev ≠ '*' ∧ rest.head? ≠ some '*'
    · rw [findItalicClose, if_pos hc] at h
      exact ⟨[], rest, by simp [hc.1], by simp [← Option.some_inj.mp h]⟩
    · rw [findItalicClose, if_neg hc] at h
      obtain ⟨k2, hk2, hk⟩ := Option.map_eq_some'.mp h
      obtain ⟨pre, post, hl, hlen⟩ := ih c k2 hk2
      exact ⟨c :: pre, post, by simp [hl], by simp [hlen]; omega⟩

theorem scanParen_eq :
    ∀ l depth p, depth ≠ 0 → scanParen l depth = some p →
      ∃ pre post, l = pre ++ ')' :: post ∧ pre.length = p := by
  intro l
  induction l with
  | nil => intro depth p _ h; simp [scanParen] at h
  | cons c rest ih =>
    intro depth p hd h
    rw [scanParen] at h
    by_cases h0 : (if c = '(' then depth + 1 else if c = ')' then depth - 1 else depth) = 0
    · rw [if_pos h0] at h
      have hc : c = ')' := by
        by_cases h1 : c = '('
        · simp [h1] at h0
        · by_cases h2 : c = ')'
          · exact h2
          · simp [h1, h2] at h0; exact absurd h0 hd
      exact ⟨[], rest, by simp [hc], by simp [← Option.some_inj.mp h]⟩
    · rw [if_neg h0] at h
      obtain ⟨k2, hk2, hk⟩ := Option.map_eq_some'.mp h
      obtain ⟨pre, post, hl, hlen⟩ := ih _ k2 h0 hk2
      exact ⟨c :: pre, post, by simp [hl], by simp [hlen]; omega⟩

/-- Successful link match: the input decomposes as
`[` text `]` `(` url `)` rest, with non-empty text and URL — the URL is
stored verbatim as the segment between `(` and its depth-balancing `)`. -/
theorem tryLink_eq (s lt url rem : List Char) (h : tryLink s = some (lt, url, rem)) :
    s = '[' :: (lt ++ ']' :: '(' :: (url ++ ')' :: rem)) ∧ lt ≠ [] ∧ url ≠ [] := by
  cases s with
  | nil => simp [tryLink] at h
  | cons c rest =>
    rw [tryLink] at h
    by_cases hc : c = '['
    · rw [if_pos hc] at h
      cases hf : findChar ']' rest with
      | none => rw [hf] at h; simp at h
      | some cb =>
        simp only [hf] at h
        obtain ⟨pre, post, hrest, hlen⟩ := findChar_eq ']' rest cb hf
        by_cases hp : (rest.drop (cb + 1)).head? = some '('
        · rw [if_pos hp] at h
          have hdrop1 : rest.drop (cb + 1) = post := by
            have h1 : rest = (pre ++ [']']) ++ post := by simp [hrest]
            have h2 : cb + 1 = (pre ++ [']']).length := by simp [hlen]
            rw [h1, h2, List.drop_left]
          obtain ⟨post2, hpost⟩ := List.head?_eq_some_iff.mp (hdrop1 ▸ hp)
          have hdrop2 : rest.drop (cb + 2) = post2 := by
            have h1 : rest = (pre ++ [']', '(']) ++ post2 := by simp [hrest, hpost]
            have h2 : cb + 2 = (pre ++ [']', '(']).length := by simp [hlen]
            rw [h1, h2, List.drop_left]
          rw [hdrop2] at h
          cases hs : scanParen post2 1 with
          | none => rw [hs] at h; simp at h
          | some p =>
            simp only [hs] at h
            obtain ⟨pre2, post3, hpost2, hlen2⟩ := scanParen_eq post2 1 p (by omega) hs
            have htake : rest.take cb = pre := by
              rw [hrest, ← hlen]; exact List.take_left pre _
            have htake2 : post2.take p = pre2 := by
              rw [hpost2, ← hlen2]; exact List.take_left pre2 _
            have hdrop3 : post2.drop (p + 1) = post3 := by
              have h1 : post2 = (pre2 ++ [')']) ++ post3 := by simp [hpost2]
              have h2 : p + 1 = (pre2 ++ [')']).length := by simp [hlen2]
              rw [h1, h2, List.drop_left]
            by_cases hg : (rest.take cb).length > 0 ∧ (post2.take p).length > 0
            · rw [if_pos hg] at h
              rw [htake, htake2, hdrop3] at h
              have h3 := Option.some_inj.mp h
              have hlt : pre = lt := congrArg Prod.fst h3
              have hurl : pre2 = url := congrArg Prod.fst (congrArg Prod.snd h3)
              have hrem : post3 = rem := congrArg Prod.snd (congrArg Prod.snd h3)
              subst hlt hurl hrem
              refine ⟨?_, ?_, ?_⟩
              · rw [hc, hrest, hpost, hpost2]
              · rw [htake] at hg
                exact List.length_pos.mp hg.1
              · rw [htake2] at hg
                exact List.length_pos.mp hg.2
            · rw [if_neg hg] at h; simp at h
        · rw [if_neg hp] at h; simp at h
    · rw [if_neg hc] at h; simp at h

/-- Successful bold match: the input decomposes as `**` content `**` rest
with non-empty content. -/
theorem tryBold_eq (s bc rem : List Char) (h : tryBold s = some (bc, rem)) :
    s = '*' :: '*' :: (bc ++ '*' :: '*' :: rem) ∧ bc ≠ [] := by
  cases s with
  | nil => simp [tryBold] at h
  | cons c rest =>
    rw [tryBold] at h
    by_cases hc : c = '*' ∧ rest.head? = some '*'
    · rw [if_pos hc] at h
      obtain ⟨r2, hr2⟩ := List.head?_eq_some_iff.mp hc.2
      cases hf : findTwoStars rest.tail with
      | none => rw [hf] at h; simp at h
      | some be =>
        simp only [hf] at h
        obtain ⟨pre, post, hdec, hlen⟩ := findTwoStars_eq rest.tail be hf
        by_cases hb : be > 0
        · rw [if_pos hb] at h
          have htail : rest.tail = r2 := by rw [hr2]; rfl
          have htake : rest.tail.take be = pre := by
            rw [hdec, ← hlen]; exact List.take_left pre _
          have hdrop : rest.tail.drop (be + 2) = post := by
            have h1 : rest.tail = (pre ++ ['*', '*']) ++ post := by simp [hdec]
            have h2 : be + 2 = (pre ++ ['*', '*']).length := by simp [hlen]
            rw [h1, h2, List.drop_left]
          rw [htake, hdrop] at h
          have h3 := Option.some_inj.mp h
          have hbc : pre = bc := congrArg Prod.fst h3
          have hrem : post = rem := congrArg Prod.snd h3
          subst hbc hrem
          constructor
          · rw [hc.1, hr2, htail.symm.trans hdec]
          · intro hne
            rw [hne] at hlen
            simp at hlen
            omega
        · rw [if_neg hb] at h; simp at h
    · rw [if_neg hc] at h; simp at h

/-- Successful italic match: the input decomposes as `*` content `*` rest
with non-empty content. -/
theorem tryItalic_eq (s ic rem : List Char) (h : tryItalic s = some (ic, rem)) :
    s = '*' :: (ic ++ '*' :: rem) ∧ ic ≠ [] := by
  cases s with
  | nil => simp [tryItalic] at h
  | cons c rest =>
    rw [tryItalic] at h
    by_cases hc : c = '*' ∧ rest.head? ≠ some '*'
    · rw [if_pos hc] at h
      cases hf : findItalicClose '*' rest with
      | none => rw [hf] at h; simp at h
      | some f =>
        simp only [hf] at h
        obtain ⟨pre, post, hdec, hlen⟩ := findItalicClose_eq rest '*' f hf
        by_cases hb : f > 0
        · rw [if_pos hb] at h
          have htake : rest.take f = pre := by
            rw [hdec, ← hlen]; exact List.take_left pre _
          have hdrop : rest.drop (f + 1) = post := by
            have h1 : rest = (pre ++ ['*']) ++ post := by simp [hdec]
            have h2 : f + 1 = (pre ++ ['*']).length := by simp [hlen]
            rw [h1, h2, List.drop_left]
          rw [htake, hdrop] at h
          have h3 := Option.some_inj.mp h
          have hic : pre = ic := congrArg Prod.fst h3
          have hrem : post = rem := congrArg Prod.snd h3
          subst hic hrem
          constructor
          · rw [hc.1, hdec]
          · intro hne
            rw [hne] at hlen
            simp at hlen
            omega
        · rw [if_neg hb] at h; simp at h
    · rw [if_neg hc] at h; simp at h

/-! ## Termination: the fuel budget suffices -/

theorem goInline_isSome :
    ∀ fuel s buf, s.length < fuel → (goInline fuel s buf).isSome = true := by
  intro fuel
  induction fuel with
  | zero => intro s buf h; omega
  | succ f ih =>
    intro s buf h
    cases s with
    | nil => simp [goInline, flushBuf]
    | cons c rest =>
      rw [goInline]
      cases hL : tryLink (c :: rest) with
      | some v =>
        obtain ⟨lt, url, rem⟩ := v
        obtain ⟨hdec, hlt, hurl⟩ := tryLink_eq _ _ _ _ hL
        have hlen := congrArg List.length hdec
        simp [List.length_append] at hlen
        simp only [List.length_cons] at h
        obtain ⟨inner, hinner⟩ := Option.isSome_iff_exists.mp (ih lt [] (by omega))
        obtain ⟨tl, htl⟩ := Option.isSome_iff_exists.mp (ih rem [] (by omega))
        simp [hinner, htl]
      | none =>
        cases hB : tryBold (c :: rest) with
        | some v =>
          obtain ⟨bc, rem⟩ := v
          obtain ⟨hdec, hbc⟩ := tryBold_eq _ _ _ hB
          have hlen := congrArg List.length hdec
          simp [List.length_append] at hlen
          simp only [List.length_cons] at h
          obtain ⟨inner, hinner⟩ := Option.isSome_iff_exists.mp (ih bc [] (by omega))
          obtain ⟨tl, htl⟩ := Option.isSome_iff_exists.mp (ih rem [] (by omega))
          simp [hinner, htl]
        | none =>
          cases hI : tryItalic (c :: rest) with
          | some v =>
            obtain ⟨ic, rem⟩ := v
            obtain ⟨hdec, hic⟩ := tryItalic_eq _ _ _ hI
            have hlen := congrArg List.length hdec
            simp [List.length_append] at hlen
            simp only [List.length_cons] at h
            obtain ⟨inner, hinner⟩ := Option.isSome_iff_exists.mp (ih ic [] (by omega))
            obtain ⟨tl, htl⟩ := Option.isSome_iff_exists.mp (ih rem [] (by omega))
            simp [hinner, htl]
          | none =>
            exact ih rest (buf ++ [c]) (by simp at h; omega)

theorem spanBullet_length : ∀ ls, (spanBullet ls).2.length ≤ ls.length := by
  intro ls
  induction ls with
  | nil => simp [spanBullet]
  | cons l rest ih =>
    rw [spanBullet]
    cases matchBullet l with
    | some v => simp only [List.length_cons]; omega
    | none => simp

theorem spanOrdered_length : ∀ ls, (spanOrdered ls).2.length ≤ ls.length := by
  intro ls
  induction ls with
  | nil => simp [spanOrdered]
  | cons l rest ih =>
    rw [spanOrdered]
    cases matchOrdered l with
    | some v => simp only [List.length_cons]; omega
    | none => simp

theorem spanBullet_cons (l : List Char) (ls : List (List Char)) (v : Nat × List Char)
    (h : matchBullet l = some v) :
    (spanBullet (l :: ls)).2 = (spanBullet ls).2 := by
  rw [spanBullet, h]

theorem spanOrdered_cons (l : List Char) (ls : List (List Char)) (v : Nat × List Char)
    (h : matchOrdered l = some v) :
    (spanOrdered (l :: ls)).2 = (spanOrdered ls).2 := by
  rw [spanOrdered, h]

theorem goBlocks_isSome :
    ∀ fuel lines, lines.length < fuel → (goBlocks fuel lines).isSome = true := by
  intro fuel
  induction fuel with
  | zero => intro lines h; omega
  | succ f ih =>
    intro lines h
    cases lines with
    | nil => simp [goBlocks]
    | cons line rest =>
      rw [goBlocks]
      simp only [List.length_cons] at h
      by_cases hb : (matchBullet line).isSome
      · rw [if_pos hb]
        obtain ⟨v, hv⟩ := Option.isSome_iff_exists.mp hb
        have hlen : (spanBullet (line :: rest)).2.length ≤ rest.length := by
          rw [spanBullet_cons line rest v hv]
          exact spanBullet_length rest
        simp [Option.isSome_map]
        exact ih _ (by omega)
      · rw [if_neg hb]
        by_cases ho : (matchOrdered line).isSome
        · rw [if_pos ho]
          obtain ⟨v, hv⟩ := Option.isSome_iff_exists.mp ho
          have hlen : (spanOrdered (line :: rest)).2.length ≤ rest.length := by
            rw [spanOrdered_cons line rest v hv]
            exact spanOrdered_length rest
          simp [Option.isSome_map]
          exact ih _ (by omega)
        · rw [if_neg ho]
          cases matchQuote line with
          | some content =>
            simp [Option.isSome_map]
            exact ih rest (by omega)
          | none =>
            by_cases he : line.length = 0
            · rw [if_pos he]
              simp [Option.isSome_map]
              exact ih rest (by omega)
            · rw [if_neg he]
              simp [Option.isSome_map]
              exact ih rest (by omega)

/-! ## The children-non-empty invariant and plain-text behaviour -/

theorem flushBuf_wf (buf : List Char) : inlineWFList (flushBuf buf) = true := by
  by_cases hb : buf.length > 0 <;> simp [flushBuf, hb, inlineWFList, inlineWF]

theorem inlineWFList_append (a b : List InlineToken) :
    inlineWFList (a ++ b) = (inlineWFList a && inlineWFList b) := by
  induction a with
  | nil => simp [inlineWFList]
  | cons t ts ih => simp [inlineWFList, ih, Bool.and_assoc]

theorem goInline_ne :
    ∀ fuel s buf ts, goInline fuel s buf = some ts → buf ≠ [] ∨ s ≠ [] → ts ≠ [] := by
  intro fuel
  induction fuel with
  | zero => intro s buf ts h _; simp [goInline] at h
  | succ f ih =>
    intro s buf ts h hne
    cases s with
    | nil =>
      rw [goInline] at h
      have hts := Option.some_inj.mp h
      subst hts
      rcases hne with h1 | h1
      · simp [flushBuf, List.length_pos.mpr h1]
      · simp at h1
    | cons c rest =>
      rw [goInline] at h
      cases hL : tryLink (c :: rest) with
      | some v =>
        obtain ⟨lt, url, rem⟩ := v
        simp only [hL] at h
        cases h1 : goInline f lt [] with
        | none => simp only [h1] at h; exact Option.noConfusion h
        | some inner =>
          cases h2 : goInline f rem [] with
          | none => simp only [h1, h2] at h; exact Option.noConfusion h
          | some tl =>
            simp only [h1, h2] at h
            have hts := Option.some_inj.mp h
            subst hts
            simp
      | none =>
        simp only [hL] at h
        cases hB : tryBold (c :: rest) with
        | some v =>
          obtain ⟨bc, rem⟩ := v
          simp only [hB] at h
          cases h1 : goInline f bc [] with
          | none => simp only [h1] at h; exact Option.noConfusion h
          | some inner =>
            cases h2 : goInline f rem [] with
            | none => simp only [h1, h2] at h; exact Option.noConfusion h
            | some tl =>
              simp only [h1, h2] at h
              have hts := Option.some_inj.mp h
              subst hts
              simp
        | none =>
          simp only [hB] at h
          cases hI : tryItalic (c :: rest) with
          | some v =>
            obtain ⟨ic, rem⟩ := v
            simp only [hI] at h
            cases h1 : goInline f ic [] with
            | none => simp only [h1] at h; exact Option.noConfusion h
            | some inner =>
              cases h2 : goInline f rem [] with
              | none => simp only [h1, h2] at h; exact Option.noConfusion h
              | some tl =>
                simp only [h1, h2] at h
                have hts := Option.some_inj.mp h
                subst hts
                simp
          | none =>
            simp only [hI] at h
            exact ih rest (buf ++ [c]) ts h (Or.inl (by simp))

theorem goInline_wf :
    ∀ fuel s buf ts, goInline fuel s buf = some ts → inlineWFList ts = true := by
  intro fuel
  induction fuel with
  | zero => intro s buf ts h; simp [goInline] at h
  | succ f ih =>
    intro s buf ts h
    cases s with
    | nil =>
      rw [goInline] at h
      have hts := Option.some_inj.mp h
      subst hts
      exact flushBuf_wf buf
    | cons c rest =>
      rw [goInline] at h
      cases hL : tryLink (c :: rest) with
      | some v =>
        obtain ⟨lt, url, rem⟩ := v
        simp only [hL] at h
        cases h1 : goInline f lt [] with
        | none => simp only [h1] at h; exact Option.noConfusion h
        | some inner =>
          cases h2 : goInline f rem [] with
          | none => simp only [h1, h2] at h; exact Option.noConfusion h
          | some tl =>
            simp only [h1, h2] at h
            have hts := Option.some_inj.mp h
            subst hts
            have hne : inner ≠ [] :=
              goInline_ne f lt [] inner h1 (Or.inr (tryLink_eq _ _ _ _ hL).2.1)
            simp [inlineWFList_append, flushBuf_wf, inlineWFList, inlineWF, hne,
              ih lt [] inner h1, ih rem [] tl h2]
      | none =>
        simp only [hL] at h
        cases hB : tryBold (c :: rest) with
        | some v =>
          obtain ⟨bc, rem⟩ := v
          simp only [hB] at h
          cases h1 : goInline f bc [] with
          | none => simp only [h1] at h; exact Option.noConfusion h
          | some inner =>
            cases h2 : goInline f rem [] with
            | none => simp only [h1, h2] at h; exact Option.noConfusion h
            | some tl =>
              simp only [h1, h2] at h
              have hts := Option.some_inj.mp h
              subst hts
              have hne : inner ≠ [] :=
                goInline_ne f bc [] inner h1 (Or.inr (tryBold_eq _ _ _ hB).2)
              simp [inlineWFList_append, flushBuf_wf, inlineWFList, inlineWF, hne,
                ih bc [] inner h1, ih rem [] tl h2]
        | none =>
          simp only [hB] at h
          cases hI : tryItalic (c :: rest) with
          | some v =>
            obtain ⟨ic, rem⟩ := v
            simp only [hI] at h
            cases h1 : goInline f ic [] with
            | none => simp only [h1] at h; exact Option.noConfusion h
            | some inner =>
              cases h2 : goInline f rem [] with
              | none => simp only [h1, h2] at h; exact Option.noConfusion h
              | some tl =>
                simp only [h1, h2] at h
                have hts := Option.some_inj.mp h
                subst hts
                have hne : inner ≠ [] :=
                  goInline_ne f ic [] inner h1 (Or.inr (tryItalic_eq _ _ _ hI).2)
                simp [inlineWFList_append, flushBuf_wf, inlineWFList, inlineWF, hne,
                  ih ic [] inner h1, ih rem [] tl h2]
          | none =>
            simp only [hI] at h
            exact ih rest (buf ++ [c]) ts h

theorem tryLink_none (c : Char) (rest : List Char) (hc : c ≠ '[') :
    tryLink (c :: rest) = none := by
  rw [tryLink, if_neg hc]

theorem tryBold_none (c : Char) (rest : List Char) (hc : c ≠ '*') :
    tryBold (c :: rest) = none := by
  rw [tryBold, if_neg (by intro hx; exact hc hx.1)]

theorem tryItalic_none (c : Char) (rest : List Char) (hc : c ≠ '*') :
    tryItalic (c :: rest) = none := by
  rw [tryItalic, if_neg (by intro hx; exact hc hx.1)]

theorem goInline_plain :
    ∀ fuel s buf, s.length < fuel → (∀ c ∈ s, c ≠ '*' ∧ c ≠ '[') →
      goInline fuel s buf = some (flushBuf (buf ++ s)) := by
  intro fuel
  induction fuel with
  | zero => intro s buf h _; omega
  | succ f ih =>
    intro s buf h hmk
    cases s with
    | nil => simp [goInline]
    | cons c rest =>
      have hc := hmk c (by simp)
      rw [goInline, tryLink_none c rest hc.2, tryBold_none c rest hc.1,
        tryItalic_none c rest hc.1]
      rw [ih rest (buf ++ [c]) (by simp at h ⊢; omega)
        (fun x hx => hmk x (by simp [hx]))]
      simp

/-! ## Auxiliary equalities for the compiler -/

theorem countInsertedLength_foldl :
    ∀ (ops : List Op) (n : Nat),
      ops.foldl
        (fun sum op =>
          match op with
          | Op.insert t _ => sum + t.length
          | Op.retain _ => sum)
        n = n + specInsertSum ops := by
  intro ops
  induction ops with
  | nil => intro n; simp [specInsertSum]
  | cons op rest ih =>
    intro n
    cases op <;> simp [specInsertSum, ih, List.map_cons]
    omega

theorem countInsertedLength_eq (ops : List Op) :
    countInsertedLength ops = specInsertSum ops := by
  rw [countInsertedLength, countInsertedLength_foldl]
  omega

theorem opsForItems_eq (lt : String) :
    ∀ items, opsForItems lt items =
      (items.map fun it =>
        pushInlineOps it.content {} ++
          [Op.insert "\n" (some (listAttrs lt it.indent))]).flatten := by
  intro items
  induction items with
  | nil => simp [opsForItems]
  | cons it its ih => simp [opsForItems, opsForItem, ih]

theorem scanParen_depth :
    ∀ l d p, 0 < d → scanParen l d = some p →
      (∀ i, i ≤ p → ((l.take i).count ')' : Int) < (d : Int) + (l.take i).count '(') ∧
      ((d : Int) + (l.take (p + 1)).count '(' = (l.take (p + 1)).count ')') := by
  intro l
  induction l with
  | nil => intro d p _ h; simp [scanParen] at h
  | cons c rest ih =>
    intro d p hd h
    rw [scanParen] at h
    by_cases h0 : (if c = '(' then d + 1 else if c = ')' then d - 1 else d) = 0
    · rw [if_pos h0] at h
      have hp := Option.some_inj.mp h
      subst hp
      have hc : c = ')' ∧ d = 1 := by
        by_cases h1 : c = '('
        · simp [h1] at h0
        · by_cases h2 : c = ')'
          · simp [h1, h2] at h0; exact ⟨h2, by omega⟩
          · simp [h1, h2] at h0; omega
      constructor
      · intro i hi
        have hi0 : i = 0 := by omega
        subst hi0
        simpa using hd
      · simp [hc.1, hc.2, List.count_cons]
    · rw [if_neg h0] at h
      obtain ⟨p2, hp2, hp⟩ := Option.map_eq_some'.mp h
      have hd2 : 0 < (if c = '(' then d + 1 else if c = ')' then d - 1 else d) :=
        Nat.pos_of_ne_zero h0
      obtain ⟨ih1, ih2⟩ := ih _ p2 hd2 hp2
      have hshift : ∀ x : List Char,
          (d : Int) + (c :: x).count '(' - (c :: x).count ')' =
            ((if c = '(' then d + 1 else if c = ')' then d - 1 else d : Nat) : Int) +
              x.count '(' - x.count ')' := by
        intro x
        by_cases h1 : c = '('
        · simp [h1, List.count_cons]; omega
        · by_cases h2 : c = ')'
          · simp [h1, h2, List.count_cons]
            have : 1 ≤ d := hd
            push_cast [Nat.cast_sub this]
            omega
          · simp [h1, h2, List.count_cons]
      subst hp
      constructor
      · intro i hi
        cases i with
        | zero => simpa using hd
        | succ i2 =>
          rw [List.take_succ_cons]
          have := hshift (rest.take i2)
          have h3 := ih1 i2 (by omega)
          omega
      · rw [List.take_succ_cons]
        have := hshift (rest.take (p2 + 1))
        omega

/-! ## Claim theorems -/

/-- C1: the inline compiler emits, for each `Text` token, one `Insert`
whose attributes equal the inherited map (the attributes field being
omitted when the map is empty), and processes `Bold`, `Italic` and `Link`
by recursing into the children with the map extended by `bold: true`,
`italic: true` and `link: url` respectively; compiling
`Italic[Link[Text "x"], url "u"]` with no inherited attributes yields the
single operation `Insert "x" {italic: true, link: "u"}`. -/
theorem pushInlineOps_spec :
    (∀ content ts inh, pushInlineOps (InlineToken.text content :: ts) inh =
      (if inh.isEmpty then Op.insert content none else Op.insert content (some inh)) ::
        pushInlineOps ts inh) ∧
    (∀ ch ts inh, pushInlineOps (InlineToken.bold ch :: ts) inh =
      pushInlineOps ch { inh with bold := some true } ++ pushInlineOps ts inh) ∧
    (∀ ch ts inh, pushInlineOps (InlineToken.italic ch :: ts) inh =
      pushInlineOps ch { inh with italic := some true } ++ pushInlineOps ts inh) ∧
    (∀ ch url ts inh, pushInlineOps (InlineToken.link ch url :: ts) inh =
      pushInlineOps ch { inh with link := some url } ++ pushInlineOps ts inh) ∧
    pushInlineOps [InlineToken.italic [InlineToken.link [InlineToken.text "x"] "u"]] {} =
      [Op.insert "x" (some { italic := some true, link := some "u" })] := by
  refine ⟨?_, ?_, ?_, ?_, rfl⟩
  · intro content ts inh
    by_cases hi : inh.isEmpty <;> simp [pushInlineOps, pushInlineOp, hi]
  · intro ch ts inh; rw [pushInlineOps, pushInlineOp]
  · intro ch ts inh; rw [pushInlineOps, pushInlineOp]
  · intro ch url ts inh; rw [pushInlineOps, pushInlineOp]

/-- C2: a matched link decomposes the input verbatim as
`[` text `]` `(` url `)` rest, the URL scan tracks parenthesis depth
(strictly positive before the closing parenthesis, zero exactly there),
and the Wikipedia example parses to a single link token with the
parenthesised URL taken exactly. -/
theorem link_url_spec :
    (∀ s lt url rem, tryLink s = some (lt, url, rem) →
      s = '[' :: (lt ++ ']' :: '(' :: (url ++ ')' :: rem))) ∧
    (∀ l p, scanParen l 1 = some p →
      (∀ i, i ≤ p → ((l.take i).count ')' : Int) < 1 + (l.take i).count '(') ∧
      ((1 : Int) + (l.take (p + 1)).count '(' = (l.take (p + 1)).count ')')) ∧
    parseInline "[wiki](https://en.wikipedia.org/wiki/Foo_(bar))" =
      [InlineToken.link [InlineToken.text "wiki"] "https://en.wikipedia.org/wiki/Foo_(bar)"] := by
  refine ⟨?_, ?_, rfl⟩
  · intro s lt url rem h
    exact (tryLink_eq s lt url rem h).1
  · intro l p h
    have := scanParen_depth l 1 p (by omega) h
    simpa using this

/-- C3: `parseMarkdown` on the empty string yields exactly one `Newline`
token, and on the two-character string of two newlines yields exactly
three `Newline` tokens. -/
theorem parseMarkdown_edge :
    parseMarkdown "" = [Token.newline] ∧
    parseMarkdown "\n\n" = [Token.newline, Token.newline, Token.newline] :=
  ⟨rfl, rfl⟩

/-- C4: for any token list and positive starting offset `k`, the compiled
operation list starts with `Retain k`, and the final cursor position set
by the caller equals `k` plus the sum of the lengths of all inserted
texts, retains contributing nothing. -/
theorem buildDelta_offset (tokens : List Token) (k : Nat) (hk : 0 < k) :
    (buildDelta tokens k).head? = some (Op.retain k) ∧
    finalCursor tokens k = k + specInsertSum (buildDelta tokens k) := by
  constructor
  · simp [buildDelta, hk]
  · rw [finalCursor, countInsertedLength_eq]

theorem buildDelta_offset_witness :
    0 < 3 ∧
      ((buildDelta [Token.newline] 3).head? = some (Op.retain 3) ∧
        finalCursor [Token.newline] 3 = 3 + specInsertSum (buildDelta [Token.newline] 3)) :=
  ⟨by decide, buildDelta_offset [Token.newline] 3 (by decide)⟩

/-- C5: a `BulletList`/`OrderedList` token compiles, item by item in
order, to the item's inline-compiled content followed by one newline
insert whose attributes carry `list: "bullet"`/`list: "ordered"` and
carry the `indent` key with exactly the item's indent iff that indent is
positive (the key is absent at indent 0). -/
theorem listCompile_spec :
    (∀ items, opsForToken (Token.bulletList items) =
      (items.map fun it =>
        pushInlineOps it.content {} ++
          [Op.insert "\n" (some (listAttrs "bullet" it.indent))]).flatten) ∧
    (∀ items, opsForToken (Token.orderedList items) =
      (items.map fun it =>
        pushInlineOps it.content {} ++
          [Op.insert "\n" (some (listAttrs "ordered" it.indent))]).flatten) ∧
    (∀ listType ind, (listAttrs listType ind).list = some listType ∧
      ((listAttrs listType ind).indent = some ind ↔ 0 < ind)) ∧
    (∀ listType, (listAttrs listType 0).indent = none) := by
  refine ⟨?_, ?_, ?_, ?_⟩
  · intro items; rw [opsForToken, opsForItems_eq]
  · intro items; rw [opsForToken, opsForItems_eq]
  · intro listType ind
    refine ⟨rfl, ?_⟩
    by_cases hi : ind > 0 <;> simp [listAttrs, hi]
  · intro listType; simp [listAttrs]

/-- C6: the parser never fails — the inline scanner and the block scanner
produce a result on every input within their fuel budget — and the
unclosed-emphasis example degrades to a single plain-text token. -/
theorem parser_total :
    (∀ s : String, (parseInlineCore s.data).isSome = true) ∧
    (∀ md : String, (parseMarkdownCore (splitLines md.data)).isSome = true) ∧
    parseInline "**unclosed" = [InlineToken.text "**unclosed"] := by
  refine ⟨?_, ?_, rfl⟩
  · intro s; rw [parseInlineCore]; exact goInline_isSome _ _ _ (by omega)
  · intro md; rw [parseMarkdownCore]; exact goBlocks_isSome _ _ (by omega)

/-- C7: in every token tree returned by `parseInline`, the children of
every `bold`, `italic` and `link` node are non-empty, at every depth. -/
theorem parseInline_children_nonempty :
    ∀ s : String, inlineWFList (parseInline s) = true := by
  intro s
  rw [parseInline]
  cases h : parseInlineCore s.data with
  | none => simp [inlineWFList]
  | some ts =>
    rw [parseInlineCore] at h
    simpa using goInline_wf _ _ _ _ h

/-- C8: on input without `*` and `[`, `parseInline` yields exactly one
text token carrying the input itself, and the empty token list on the
empty string. -/
theorem parseInline_plain (s : String) (h : ∀ c ∈ s.data, c ≠ '*' ∧ c ≠ '[') :
    parseInline s = if s = "" then [] else [InlineToken.text s] := by
  rw [parseInline, parseInlineCore, goInline_plain _ _ _ (by omega) h]
  by_cases hs : s = ""
  · subst hs; simp [flushBuf]
  · rw [if_neg hs]
    have hd : s.data ≠ [] := by
      intro hx
      exact hs (by cases s with | mk d => simp at hx; simp [hx])
    simp [flushBuf, List.length_pos.mpr hd]
    exact fun hx => hd (List.eq_nil_of_length_eq_zero hx)

theorem parseInline_plain_witness :
    (∀ c ∈ ("abc" : String).data, c ≠ '*' ∧ c ≠ '[') ∧
    parseInline "abc" = if ("abc" : String) = "" then [] else [InlineToken.text "abc"] :=
  ⟨by decide, parseInline_plain "abc" (by decide)⟩

/-- C10: the inline scanner terminates: fuel exceeding the input length
always produces a result, and each successful match hands the recursive
parse a strictly shorter input and resumes the scan on a strictly shorter
suffix. -/
theorem parseInline_terminates :
    (∀ fuel s buf, s.length < fuel → (goInline fuel s buf).isSome = true) ∧
    (∀ s lt url rem, tryLink s = some (lt, url, rem) →
      lt.length < s.length ∧ rem.length < s.length) ∧
    (∀ s bc rem, tryBold s = some (bc, rem) →
      bc.length < s.length ∧ rem.length < s.length) ∧
    (∀ s ic rem, tryItalic s = some (ic, rem) →
      ic.length < s.length ∧ rem.length < s.length) := by
  refine ⟨goInline_isSome, ?_, ?_, ?_⟩
  · intro s lt url rem h
    have hdec := (tryLink_eq s lt url rem h).1
    have := congrArg List.length hdec
    simp [List.length_append] at this
    omega
  · intro s bc rem h
    have hdec := (tryBold_eq s bc rem h).1
    have := congrArg List.length hdec
    simp [List.length_append] at this
    omega
  · intro s ic rem h
    have hdec := (tryItalic_eq s ic rem h).1
    have := congrArg List.length hdec
    simp [List.length_append] at this
    omega

theorem parseInline_terminates_witness :
    ("*a*".data.length < 4) ∧ (goInline 4 "*a*".data []).isSome = true :=
  ⟨by decide, parseInline_terminates.1 4 "*a*".data [] (by decide)⟩

/-! ## The detection predicate: declarative characterisation -/

theorem link_url_spec_witness :
    "[a](b(c))".data =
      '[' :: ("a".data ++ ']' :: '(' :: ("b(c)".data ++ ')' :: ([] : List Char))) :=
  link_url_spec.1 "[a](b(c))".data "a".data "b(c)".data [] (by rfl)

theorem dropWhile_all_append (p : Char → Bool) :
    ∀ ws rest : List Char, (∀ w ∈ ws, p w = true) →
      (ws ++ rest).dropWhile p = rest.dropWhile p := by
  intro ws
  induction ws with
  | nil => simp
  | cons w ws2 ih =>
    intro rest hws
    rw [List.cons_append, List.dropWhile_cons_of_pos (hws w (by simp))]
    exact ih rest fun x hx => hws x (by simp [hx])

theorem takeWhile_all_append (p : Char → Bool) :
    ∀ (ws : List Char) (b : Char) (rest : List Char), (∀ w ∈ ws, p w = true) → p b = false →
      (ws ++ b :: rest).takeWhile p = ws := by
  intro ws
  induction ws with
  | nil => intro b rest _ hb; simp [List.takeWhile_cons, hb]
  | cons w ws2 ih =>
    intro b rest hws hb
    rw [List.cons_append, List.takeWhile_cons_of_pos (hws w (by simp))]
    rw [ih b rest (fun x hx => hws x (by simp [hx])) hb]

theorem dropWhile_stop (p : Char → Bool) (b : Char) (rest : List Char) (hb : p b = false) :
    (b :: rest).dropWhile p = b :: rest := by
  simp [List.dropWhile_cons, hb]

/-- A line containing the claim's bullet-list pre-filter pattern: optional
tab/space indentation, a bullet marker, a space, then non-empty content. -/
def BulletLineP (line : List Char) : Prop :=
  ∃ ws b r, line = ws ++ b :: ' ' :: r ∧ (∀ w ∈ ws, tabOrSpace w = true) ∧
    (b = '-' ∨ b = '*') ∧ r ≠ []

/-- A line containing the claim's ordered-list pre-filter pattern. -/
def OrderedLineP (line : List Char) : Prop :=
  ∃ ws ds r, line = ws ++ (ds ++ '.' :: ' ' :: r) ∧ (∀ w ∈ ws, tabOrSpace w = true) ∧
    ds ≠ [] ∧ (∀ d ∈ ds, d.isDigit = true) ∧ r ≠ []

/-- A line containing the claim's blockquote pre-filter pattern. -/
def QuoteLineP (line : List Char) : Prop :=
  ∃ ws r, line = ws ++ '>' :: ' ' :: r ∧ (∀ w ∈ ws, tabOrSpace w = true) ∧ r ≠ []

/-- A `**…**` span with non-empty single-line content, anywhere. -/
def BoldSpanP (s : List Char) : Prop :=
  ∃ p m q, s = p ++ '*' :: '*' :: (m ++ '*' :: '*' :: q) ∧ m ≠ [] ∧ ∀ c ∈ m, c ≠ '\n'

/-- A `*…*` span whose opening `*` is immediately followed by a
non-whitespace character and whose delimiters are not part of a `**`
pair, anywhere. -/
def ItalicSpanP (s : List Char) : Prop :=
  ∃ p m q, s = p ++ '*' :: (m ++ '*' :: q) ∧ m ≠ [] ∧ (∀ c ∈ m, c ≠ '\n') ∧
    (∀ c, p.getLast? = some c → c ≠ '*') ∧
    (∀ c, m.head? = some c → c ≠ '*' ∧ jsWs c = false) ∧
    (∀ c, m.getLast? = some c → c ≠ '*') ∧
    (∀ c, q.head? = some c → c ≠ '*')

/-- A `[…](…)` span with non-empty single-line text and URL parts,
anywhere; no parenthesis balance is required of the URL part. -/
def LinkSpanP (s : List Char) : Prop :=
  ∃ p a b q, s = p ++ '[' :: (a ++ ']' :: '(' :: (b ++ ')' :: q)) ∧
    a ≠ [] ∧ (∀ c ∈ a, c ≠ '\n') ∧ b ≠ [] ∧ (∀ c ∈ b, c ≠ '\n')

theorem bulletLinePre_iff (line : List Char) :
    bulletLinePre line = true ↔ BulletLineP line := by
  constructor
  · intro h
    rw [bulletLinePre] at h
    cases hd : line.dropWhile tabOrSpace with
    | nil => rw [hd] at h; simp at h
    | cons b rest2 =>
      cases rest2 with
      | nil => rw [hd] at h; simp at h
      | cons sp rest3 =>
        cases rest3 with
        | nil => rw [hd] at h; simp at h
        | cons c t =>
          rw [hd] at h
          simp at h
          refine ⟨line.takeWhile tabOrSpace, b, c :: t, ?_, ?_, ?_, by simp⟩
          · conv_lhs => rw [← List.takeWhile_append_dropWhile (p := tabOrSpace) (l := line)]
            rw [hd, h.2]
          · exact fun w hw => List.mem_takeWhile_imp hw
          · exact h.1
  · rintro ⟨ws, b, r, hline, hws, hb, hr⟩
    have hbf : tabOrSpace b = false := by
      rcases hb with rfl | rfl <;> decide
    rw [bulletLinePre, hline, dropWhile_all_append tabOrSpace ws _ hws,
      dropWhile_stop tabOrSpace b _ hbf]
    cases r with
    | nil => exact absurd rfl hr
    | cons c t => simp; rcases hb with rfl | rfl <;> simp

theorem quoteLinePre_iff (line : List Char) :
    quoteLinePre line = true ↔ QuoteLineP line := by
  constructor
  · intro h
    rw [quoteLinePre] at h
    cases hd : line.dropWhile tabOrSpace with
    | nil => rw [hd] at h; simp at h
    | cons b rest2 =>
      cases rest2 with
      | nil => rw [hd] at h; simp at h
      | cons sp rest3 =>
        cases rest3 with
        | nil => rw [hd] at h; simp at h
        | cons c t =>
          rw [hd] at h
          simp at h
          refine ⟨line.takeWhile tabOrSpace, c :: t, ?_, ?_, by simp⟩
          · conv_lhs => rw [← List.takeWhile_append_dropWhile (p := tabOrSpace) (l := line)]
            rw [hd, h.1, h.2]
          · exact fun w hw => List.mem_takeWhile_imp hw
  · rintro ⟨ws, r, hline, hws, hr⟩
    rw [quoteLinePre, hline, dropWhile_all_append tabOrSpace ws _ hws,
      dropWhile_stop tabOrSpace '>' _ (by decide)]
    cases r with
    | nil => exact absurd rfl hr
    | cons c t => simp

theorem digit_not_ts (d : Char) (h : d.isDigit = true) : tabOrSpace d = false := by
  rw [tabOrSpace]
  by_cases h1 : d = '\t'
  · subst h1; exact absurd h (by decide)
  · by_cases h2 : d = ' '
    · subst h2; exact absurd h (by decide)
    · simp [h1, h2]

theorem orderedLinePre_iff (line : List Char) :
    orderedLinePre line = true ↔ OrderedLineP line := by
  constructor
  · intro h
    rw [orderedLinePre] at h
    simp only [Bool.and_eq_true, decide_eq_true_eq] at h
    obtain ⟨hlen, hmatch⟩ := h
    cases hd : (line.dropWhile tabOrSpace).dropWhile Char.isDigit with
    | nil => rw [hd] at hmatch; simp at hmatch
    | cons dot rest2 =>
      cases rest2 with
      | nil => rw [hd] at hmatch; simp at hmatch
      | cons sp rest3 =>
        cases rest3 with
        | nil => rw [hd] at hmatch; simp at hmatch
        | cons c t =>
          rw [hd] at hmatch
          simp at hmatch
          refine ⟨line.takeWhile tabOrSpace,
            (line.dropWhile tabOrSpace).takeWhile Char.isDigit, c :: t, ?_, ?_, ?_, ?_, by simp⟩
          · conv_lhs => rw [← List.takeWhile_append_dropWhile (p := tabOrSpace) (l := line)]
            congr 1
            conv_lhs => rw [← List.takeWhile_append_dropWhile (p := Char.isDigit)
              (l := line.dropWhile tabOrSpace)]
            rw [hd, hmatch.1, hmatch.2]
          · exact fun w hw => List.mem_takeWhile_imp hw
          · intro hnil
            rw [hnil] at hlen
            simp at hlen
          · exact fun d hdm => List.mem_takeWhile_imp hdm
  · rintro ⟨ws, ds, r, hline, hws, hds, hdig, hr⟩
    cases ds with
    | nil => exact absurd rfl hds
    | cons d0 dst =>
      have hd0 : Char.isDigit d0 = true := hdig d0 (by simp)
      have hafter : line.dropWhile tabOrSpace = (d0 :: dst) ++ '.' :: ' ' :: r := by
        rw [hline, dropWhile_all_append tabOrSpace ws _ hws]
        exact dropWhile_stop tabOrSpace d0 _ (digit_not_ts d0 hd0)
      have htake : ((d0 :: dst) ++ '.' :: ' ' :: r).takeWhile Char.isDigit = d0 :: dst :=
        takeWhile_all_append Char.isDigit (d0 :: dst) '.' _ hdig (by decide)
      have hdrop : ((d0 :: dst) ++ '.' :: ' ' :: r).dropWhile Char.isDigit = '.' :: ' ' :: r := by
        rw [dropWhile_all_append Char.isDigit (d0 :: dst) _ hdig]
        exact dropWhile_stop Char.isDigit '.' _ (by decide)
      rw [orderedLinePre]
      simp only [hafter, htake, hdrop]
      cases r with
      | nil => exact absurd rfl hr
      | cons c t => simp

theorem starsClose_iff :
    ∀ l, starsClose l = true ↔ ∃ m q, l = m ++ '*' :: '*' :: q ∧ ∀ c ∈ m, c ≠ '\n' := by
  intro l
  induction l with
  | nil =>
    rw [starsClose]
    simp only [Bool.false_eq_true, false_iff]
    rintro ⟨m, q, h, -⟩
    exact absurd h (by simp)
  | cons c rest ih =>
    rw [starsClose]
    simp only [Bool.or_eq_true, Bool.and_eq_true, decide_eq_true_eq]
    constructor
    · rintro (⟨hc, hh⟩ | ⟨hc, hs⟩)
      · obtain ⟨q, hq⟩ := List.head?_eq_some_iff.mp hh
        exact ⟨[], q, by simp [hc, hq], by simp⟩
      · obtain ⟨m, q, heq, hm⟩ := ih.mp hs
        refine ⟨c :: m, q, by simp [heq], ?_⟩
        intro x hx
        rcases List.mem_cons.mp hx with rfl | hx2
        · exact hc
        · exact hm x hx2
    · rintro ⟨m, q, heq, hm⟩
      cases m with
      | nil =>
        simp at heq
        exact Or.inl ⟨heq.1, by simp [heq.2]⟩
      | cons c0 m2 =>
        simp at heq
        refine Or.inr ⟨heq.1 ▸ hm c0 (by simp), ?_⟩
        exact ih.mpr ⟨m2, q, heq.2, fun x hx => hm x (by simp [hx])⟩

theorem boldAfterOpen_iff :
    ∀ l, boldAfterOpen l = true ↔
      ∃ m q, l = m ++ '*' :: '*' :: q ∧ m ≠ [] ∧ ∀ c ∈ m, c ≠ '\n' := by
  intro l
  cases l with
  | nil =>
    rw [boldAfterOpen]
    simp only [Bool.false_eq_true, false_iff]
    rintro ⟨m, q, h, -, -⟩
    exact absurd h (by simp)
  | cons c rest =>
    rw [boldAfterOpen]
    simp only [Bool.and_eq_true, decide_eq_true_eq]
    constructor
    · rintro ⟨hc, hs⟩
      obtain ⟨m, q, heq, hm⟩ := (starsClose_iff rest).mp hs
      refine ⟨c :: m, q, by simp [heq], by simp, ?_⟩
      intro x hx
      rcases List.mem_cons.mp hx with rfl | hx2
      · exact hc
      · exact hm x hx2
    · rintro ⟨m, q, heq, hne, hm⟩
      cases m with
      | nil => exact absurd rfl hne
      | cons c0 m2 =>
        simp at heq
        refine ⟨heq.1 ▸ hm c0 (by simp), ?_⟩
        exact (starsClose_iff rest).mpr ⟨m2, q, heq.2, fun x hx => hm x (by simp [hx])⟩

theorem testBold_iff : ∀ l, testBold l = true ↔ BoldSpanP l := by
  intro l
  induction l with
  | nil =>
    rw [testBold, BoldSpanP]
    simp only [Bool.false_eq_true, false_iff]
    rintro ⟨p, m, q, h, -, -⟩
    exact absurd h (by simp)
  | cons c rest ih =>
    rw [testBold]
    simp only [Bool.or_eq_true, Bool.and_eq_true, decide_eq_true_eq]
    constructor
    · rintro (⟨⟨hc, hh⟩, hb⟩ | ht)
      · obtain ⟨t, htail⟩ := List.head?_eq_some_iff.mp hh
        rw [htail] at hb
        simp only [List.tail_cons] at hb
        obtain ⟨m, q, heq, hne, hm⟩ := (boldAfterOpen_iff t).mp hb
        exact ⟨[], m, q, by simp [hc, htail, heq], hne, hm⟩
      · obtain ⟨p, m, q, heq, hne, hm⟩ := ih.mp ht
        exact ⟨c :: p, m, q, by simp [heq], hne, hm⟩
    · rintro ⟨p, m, q, heq, hne, hm⟩
      cases p with
      | nil =>
        simp at heq
        obtain ⟨hc, hrest⟩ := heq
        refine Or.inl ⟨⟨hc, ?_⟩, ?_⟩
        · rw [hrest]; rfl
        · rw [hrest]
          simp only [List.tail_cons]
          exact (boldAfterOpen_iff _).mpr ⟨m, q, rfl, hne, hm⟩
      | cons c0 p2 =>
        simp at heq
        exact Or.inr (ih.mpr ⟨p2, m, q, heq.2, hne, hm⟩)

theorem hasCloseCh_iff (ch : Char) :
    ∀ l, hasCloseCh ch l = true ↔ ∃ m q, l = m ++ ch :: q ∧ ∀ c ∈ m, c ≠ '\n' := by
  intro l
  induction l with
  | nil =>
    rw [hasCloseCh]
    simp only [Bool.false_eq_true, false_iff]
    rintro ⟨m, q, h, -⟩
    exact absurd h (by simp)
  | cons c rest ih =>
    rw [hasCloseCh]
    simp only [Bool.or_eq_true, Bool.and_eq_true, decide_eq_true_eq]
    constructor
    · rintro (hc | ⟨hc, hs⟩)
      · exact ⟨[], rest, by simp [hc], by simp⟩
      · obtain ⟨m, q, heq, hm⟩ := ih.mp hs
        refine ⟨c :: m, q, by simp [heq], ?_⟩
        intro x hx
        rcases List.mem_cons.mp hx with rfl | hx2
        · exact hc
        · exact hm x hx2
    · rintro ⟨m, q, heq, hm⟩
      cases m with
      | nil =>
        simp at heq
        exact Or.inl heq.1
      | cons c0 m2 =>
        simp at heq
        refine Or.inr ⟨heq.1 ▸ hm c0 (by simp), ?_⟩
        exact ih.mpr ⟨m2, q, heq.2, fun x hx => hm x (by simp [hx])⟩

theorem parenPart_iff :
    ∀ l, parenPart l = true ↔ ∃ m q, l = m ++ ')' :: q ∧ m ≠ [] ∧ ∀ c ∈ m, c ≠ '\n' := by
  intro l
  cases l with
  | nil =>
    rw [parenPart]
    simp only [Bool.false_eq_true, false_iff]
    rintro ⟨m, q, h, -, -⟩
    exact absurd h (by simp)
  | cons c rest =>
    rw [parenPart]
    simp only [Bool.and_eq_true, decide_eq_true_eq]
    constructor
    · rintro ⟨hc, hs⟩
      obtain ⟨m, q, heq, hm⟩ := (hasCloseCh_iff ')' rest).mp hs
      refine ⟨c :: m, q, by simp [heq], by simp, ?_⟩
      intro x hx
      rcases List.mem_cons.mp hx with rfl | hx2
      · exact hc
      · exact hm x hx2
    · rintro ⟨m, q, heq, hne, hm⟩
      cases m with
      | nil => exact absurd rfl hne
      | cons c0 m2 =>
        simp at heq
        refine ⟨heq.1 ▸ hm c0 (by simp), ?_⟩
        exact (hasCloseCh_iff ')' rest).mpr ⟨m2, q, heq.2, fun x hx => hm x (by simp [hx])⟩

theorem linkClose_iff :
    ∀ l, linkClose l = true ↔
      ∃ a b q, l = a ++ ']' :: '(' :: (b ++ ')' :: q) ∧ (∀ c ∈ a, c ≠ '\n') ∧
        b ≠ [] ∧ ∀ c ∈ b, c ≠ '\n' := by
  intro l
  induction l with
  | nil =>
    rw [linkClose]
    simp only [Bool.false_eq_true, false_iff]
    rintro ⟨a, b, q, h, -, -, -⟩
    exact absurd h (by simp)
  | cons c rest ih =>
    rw [linkClose]
    simp only [Bool.or_eq_true, Bool.and_eq_true, decide_eq_true_eq]
    constructor
    · rintro (⟨⟨hc, hh⟩, hp⟩ | ⟨hc, hs⟩)
      · obtain ⟨t, htail⟩ := List.head?_eq_some_iff.mp hh
        rw [htail] at hp
        simp only [List.tail_cons] at hp
        obtain ⟨b, q, heq, hbne, hb⟩ := (parenPart_iff t).mp hp
        exact ⟨[], b, q, by simp [hc, htail, heq], by simp, hbne, hb⟩
      · obtain ⟨a, b, q, heq, ha, hbne, hb⟩ := ih.mp hs
        refine ⟨c :: a, b, q, by simp [heq], ?_, hbne, hb⟩
        intro x hx
        rcases List.mem_cons.mp hx with rfl | hx2
        · exact hc
        · exact ha x hx2
    · rintro ⟨a, b, q, heq, ha, hbne, hb⟩
      cases a with
      | nil =>
        simp at heq
        obtain ⟨hc, hrest⟩ := heq
        refine Or.inl ⟨⟨hc, ?_⟩, ?_⟩
        · rw [hrest]; rfl
        · rw [hrest]
          simp only [List.tail_cons]
          exact (parenPart_iff _).mpr ⟨b, q, rfl, hbne, hb⟩
      | cons c0 a2 =>
        simp at heq
        refine Or.inr ⟨heq.1 ▸ ha c0 (by simp), ?_⟩
        exact ih.mpr ⟨a2, b, q, heq.2, fun x hx => ha x (by simp [hx]), hbne, hb⟩

theorem linkAfterOpen_iff :
    ∀ l, linkAfterOpen l = true ↔
      ∃ a b q, l = a ++ ']' :: '(' :: (b ++ ')' :: q) ∧ a ≠ [] ∧ (∀ c ∈ a, c ≠ '\n') ∧
        b ≠ [] ∧ ∀ c ∈ b, c ≠ '\n' := by
  intro l
  cases l with
  | nil =>
    rw [linkAfterOpen]
    simp only [Bool.false_eq_true, false_iff]
    rintro ⟨a, b, q, h, -, -, -, -⟩
    exact absurd h (by simp)
  | cons c rest =>
    rw [linkAfterOpen]
    simp only [Bool.and_eq_true, decide_eq_true_eq]
    constructor
    · rintro ⟨hc, hs⟩
      obtain ⟨a, b, q, heq, ha, hbne, hb⟩ := (linkClose_iff rest).mp hs
      refine ⟨c :: a, b, q, by simp [heq], by simp, ?_, hbne, hb⟩
      intro x hx
      rcases List.mem_cons.mp hx with rfl | hx2
      · exact hc
      · exact ha x hx2
    · rintro ⟨a, b, q, heq, hane, ha, hbne, hb⟩
      cases a with
      | nil => exact absurd rfl hane
      | cons c0 a2 =>
        simp at heq
        refine ⟨heq.1 ▸ ha c0 (by simp), ?_⟩
        exact (linkClose_iff rest).mpr
          ⟨a2, b, q, heq.2, fun x hx => ha x (by simp [hx]), hbne, hb⟩

theorem testLink_iff : ∀ l, testLink l = true ↔ LinkSpanP l := by
  intro l
  induction l with
  | nil =>
    rw [testLink, LinkSpanP]
    simp only [Bool.false_eq_true, false_iff]
    rintro ⟨p, a, b, q, h, -, -, -, -⟩
    exact absurd h (by simp)
  | cons c rest ih =>
    rw [testLink]
    simp only [Bool.or_eq_true, Bool.and_eq_true, decide_eq_true_eq]
    constructor
    · rintro (⟨hc, hL⟩ | ht)
      · obtain ⟨a, b, q, heq, hane, ha, hbne, hb⟩ := (linkAfterOpen_iff rest).mp hL
        exact ⟨[], a, b, q, by simp [hc, heq], hane, ha, hbne, hb⟩
      · obtain ⟨p, a, b, q, heq, hane, ha, hbne, hb⟩ := ih.mp ht
        exact ⟨c :: p, a, b, q, by simp [heq], hane, ha, hbne, hb⟩
    · rintro ⟨p, a, b, q, heq, hane, ha, hbne, hb⟩
      cases p with
      | nil =>
        simp at heq
        refine Or.inl ⟨heq.1, ?_⟩
        rw [heq.2]
        exact (linkAfterOpen_iff _).mpr ⟨a, b, q, rfl, hane, ha, hbne, hb⟩
      | cons c0 p2 =>
        simp at heq
        exact Or.inr (ih.mpr ⟨p2, a, b, q, heq.2, hane, ha, hbne, hb⟩)

theorem getLastD_cons :
    ∀ (m : List Char) (c prev : Char),
      ((c :: m).getLast?).getD prev = (m.getLast?).getD c := by
  intro m
  induction m with
  | nil => intro c prev; rfl
  | cons d m2 ih =>
    intro c prev
    rw [List.getLast?_cons_cons, ih d prev, ih d c]

theorem getLast?_of_ne_nil (L : List Char) (hne : L ≠ []) (d : Char) :
    L.getLast? = some ((L.getLast?).getD d) := by
  cases h : L.getLast? with
  | none => exact absurd (List.getLast?_eq_none_iff.mp h) hne
  | some x => rfl

theorem not_ws_ne_newline (c : Char) (h : jsWs c = false) : c ≠ '\n' := by
  intro hx
  subst hx
  exact absurd h (by decide)

theorem getLastD_ne_iff (p : List Char) (d : Char) (hd : d ≠ '*') :
    ((p.getLast?).getD d ≠ '*') ↔ ∀ c, p.getLast? = some c → c ≠ '*' := by
  cases h : p.getLast? with
  | none => simp [Option.getD_none, hd]
  | some x => simp

theorem head?_ne_star_iff (q : List Char) :
    (q.head? ≠ some '*') ↔ ∀ c, q.head? = some c → c ≠ '*' := by
  cases h : q.head? with
  | none => simp
  | some x => simp

theorem italicClose_iff :
    ∀ l prev, italicClose prev l = true ↔
      ∃ m q, l = m ++ '*' :: q ∧ (∀ c ∈ m, c ≠ '\n') ∧
        ((m.getLast?).getD prev ≠ '*') ∧ q.head? ≠ some '*' := by
  intro l
  induction l with
  | nil =>
    intro prev
    rw [italicClose]
    simp only [Bool.false_eq_true, false_iff]
    rintro ⟨m, q, h, -, -, -⟩
    exact absurd h (by simp)
  | cons c rest ih =>
    intro prev
    rw [italicClose]
    simp only [Bool.or_eq_true, Bool.and_eq_true, decide_eq_true_eq]
    constructor
    · rintro (⟨⟨hc, hp⟩, hh⟩ | ⟨hc, hs⟩)
      · exact ⟨[], rest, by simp [hc], by simp, by simpa using hp, hh⟩
      · obtain ⟨m2, q, heq, hm, hlast, hq⟩ := (ih c).mp hs
        refine ⟨c :: m2, q, by simp [heq], ?_, ?_, hq⟩
        · intro x hx
          rcases List.mem_cons.mp hx with rfl | hx2
          · exact hc
          · exact hm x hx2
        · rw [getLastD_cons]
          exact hlast
    · rintro ⟨m, q, heq, hm, hlast, hq⟩
      cases m with
      | nil =>
        simp at heq hlast
        exact Or.inl ⟨⟨heq.1, hlast⟩, by rw [heq.2]; exact hq⟩
      | cons c0 m2 =>
        simp at heq
        obtain ⟨hc0, hrest⟩ := heq
        subst hc0
        refine Or.inr ⟨hm c (by simp), ?_⟩
        refine (ih c).mpr ⟨m2, q, hrest, fun x hx => hm x (by simp [hx]), ?_, hq⟩
        rw [← getLastD_cons m2 c prev]
        exact hlast

theorem testItalicFrom_iff :
    ∀ l prev, testItalicFrom prev l = true ↔
      ∃ p m q, l = p ++ '*' :: (m ++ '*' :: q) ∧ m ≠ [] ∧ (∀ c ∈ m, c ≠ '\n') ∧
        ((p.getLast?).getD prev ≠ '*') ∧
        (∀ c, m.head? = some c → c ≠ '*' ∧ jsWs c = false) ∧
        (∀ c, m.getLast? = some c → c ≠ '*') ∧ q.head? ≠ some '*' := by
  intro l
  induction l with
  | nil =>
    intro prev
    rw [testItalicFrom]
    simp only [Bool.false_eq_true, false_iff]
    rintro ⟨p, m, q, h, -, -, -, -, -, -⟩
    exact absurd h (by simp)
  | cons c rest ih =>
    intro prev
    rw [testItalicFrom]
    simp only [Bool.or_eq_true, Bool.and_eq_true, decide_eq_true_eq]
    constructor
    · rintro (⟨⟨hc, hp⟩, hmatch⟩ | ht)
      · cases rest with
        | nil => rw [italicOpenNext] at hmatch; simp at hmatch
        | cons n rest2 =>
          rw [italicOpenNext] at hmatch
          simp only [Bool.and_eq_true, decide_eq_true_eq, Bool.not_eq_true'] at hmatch
          obtain ⟨⟨hn, hnws⟩, hic⟩ := hmatch
          obtain ⟨m2, q, heq2, hm2, hlast2, hq⟩ := (italicClose_iff rest2 n).mp hic
          refine ⟨[], n :: m2, q, by simp [hc, heq2], by simp, ?_, by simpa using hp,
            ?_, ?_, hq⟩
          · intro x hx
            rcases List.mem_cons.mp hx with rfl | hx2
            · exact not_ws_ne_newline x hnws
            · exact hm2 x hx2
          · intro x hx
            simp at hx
            subst hx
            exact ⟨hn, hnws⟩
          · intro x hx
            have h2 := getLastD_cons m2 n n
            rw [hx] at h2
            simp at h2
            rw [h2]
            exact hlast2
      · obtain ⟨p2, m, q, heq, hmne, hm, hpc, hhead, hlast, hq⟩ := (ih c).mp ht
        refine ⟨c :: p2, m, q, by simp [heq], hmne, hm, ?_, hhead, hlast, hq⟩
        rw [getLastD_cons]
        exact hpc
    · rintro ⟨p, m, q, heq, hmne, hm, hpc, hhead, hlast, hq⟩
      cases p with
      | nil =>
        simp at heq hpc
        obtain ⟨hc, hrest⟩ := heq
        cases m with
        | nil => exact absurd rfl hmne
        | cons n m2 =>
          refine Or.inl ⟨⟨hc, hpc⟩, ?_⟩
          simp only [List.cons_append] at hrest
          rw [hrest, italicOpenNext]
          simp only [Bool.and_eq_true, decide_eq_true_eq, Bool.not_eq_true']
          have hhn := hhead n (by simp)
          refine ⟨⟨hhn.1, hhn.2⟩, ?_⟩
          refine (italicClose_iff _ n).mpr ⟨m2, q, rfl, fun x hx => hm x (by simp [hx]), ?_, hq⟩
          have hsome := getLast?_of_ne_nil (n :: m2) (by simp) n
          have hx := hlast _ hsome
          rw [← getLastD_cons m2 n n]
          exact hx
      | cons c0 p2 =>
        simp at heq
        obtain ⟨hc0, hrest⟩ := heq
        subst hc0
        refine Or.inr ((ih c).mpr ⟨p2, m, q, hrest, hmne, hm, ?_, hhead, hlast, hq⟩)
        rw [← getLastD_cons p2 c prev]
        exact hpc

theorem testItalic_iff (s : List Char) : testItalic s = true ↔ ItalicSpanP s := by
  rw [testItalic, testItalicFrom_iff s ' ', ItalicSpanP]
  constructor
  · rintro ⟨p, m, q, heq, hmne, hm, hpc, hhead, hlast, hq⟩
    exact ⟨p, m, q, heq, hmne, hm, (getLastD_ne_iff p ' ' (by decide)).mp hpc, hhead, hlast,
      (head?_ne_star_iff q).mp hq⟩
  · rintro ⟨p, m, q, heq, hmne, hm, hpc, hhead, hlast, hq⟩
    exact ⟨p, m, q, heq, hmne, hm, (getLastD_ne_iff p ' ' (by decide)).mpr hpc, hhead, hlast,
      (head?_ne_star_iff q).mpr hq⟩

/-- C9: `looksLikeMarkdown` holds exactly when the text contains a
bullet-list line, an ordered-list line, a blockquote line, a `**…**`
span, a `*…*` span whose opening `*` is followed by a non-whitespace
character and whose delimiters are not part of a `**` pair, or a
`[…](…)` span; it is looser than the parser: it accepts the unbalanced
URL `[x]((y)` which the parser degrades to plain text. -/
theorem looksLikeMarkdown_spec :
    (∀ text : String, looksLikeMarkdown text = true ↔
      ((∃ line ∈ splitLines text.data, BulletLineP line) ∨
       (∃ line ∈ splitLines text.data, OrderedLineP line) ∨
       (∃ line ∈ splitLines text.data, QuoteLineP line) ∨
       BoldSpanP text.data ∨ ItalicSpanP text.data ∨ LinkSpanP text.data)) ∧
    looksLikeMarkdown "[x]((y)" = true ∧
    parseInline "[x]((y)" = [InlineToken.text "[x]((y)"] := by
  refine ⟨?_, rfl, rfl⟩
  intro text
  rw [looksLikeMarkdown]
  simp only [Bool.or_eq_true, List.any_eq_true, bulletLinePre_iff, orderedLinePre_iff,
    quoteLinePre_iff, testBold_iff, testItalic_iff, testLink_iff]
  simp only [or_assoc]

end SlackMD
